import Mathlib

/-!
Verification development for the GreenView Spatial Metrics & Scoring Engine
(`src/metrics.py`).  The engine is a pandas/geopandas pipeline; we embed it
shallowly:

* Polygon geometry is modelled as a finite set of abstract "cells" (area
  quanta).  A weight function `w : ℕ → ℚ` gives each cell its area in square
  metres, so `area = Σ w` over the cells; geometric intersection is set
  intersection.  Reprojection (`to_crs`) is a bijective change of coordinates;
  geometries are modelled directly in the projected (metric) system, so
  `to_crs` is the identity on the model and only matters for the heap model
  (it allocates a fresh table).
* Machine floats are modelled as exact rationals extended with the IEEE
  special values `nan`, `+inf`, `-inf` (type `Flt`), because the pipeline's
  behaviour on degenerate inputs hinges on `x / 0 = ±inf`, `0 / 0 = nan`,
  `fillna` replacing only `nan`, and `clip` mapping `±inf` to the bounds —
  all faithfully reproduced below.  Rounding of well-behaved decimal
  arithmetic is exact in ℚ; `Series.round(1)` is round-half-to-even on the
  tenths grid.
-/

/- The Batteries rational-arithmetic primitives are `@[irreducible]`, which
blocks `decide` on concrete pipeline runs; restore the default reducibility
so that concrete scenarios evaluate inside proofs. -/
attribute [local semireducible] Rat.mul Rat.inv Rat.add Rat.sub

/-- IEEE-style float value: an exact rational or a special value. -/
inductive Flt where
  | nan : Flt
  | pinf : Flt
  | ninf : Flt
  | fin (q : ℚ) : Flt
deriving DecidableEq

namespace Flt

/-- `Series.fillna(0.0)`: replaces `nan` (and only `nan`) by `0.0`. -/
def fillna0 : Flt → Flt
  | nan => fin 0
  | x => x

/-- Float division of two finite values (numpy semantics):
`b ≠ 0` gives the exact quotient, `a/0` gives `±inf` for `a ≠ 0` and `nan`
for `0/0`. -/
def fdivQ (a b : ℚ) : Flt :=
  if b ≠ 0 then fin (a / b)
  else if 0 < a then pinf
  else if a < 0 then ninf
  else nan

/-- Float subtraction with special values. -/
def fsub : Flt → Flt → Flt
  | nan, _ => nan
  | _, nan => nan
  | fin a, fin b => fin (a - b)
  | pinf, fin _ => pinf
  | fin _, pinf => ninf
  | pinf, pinf => nan
  | pinf, ninf => pinf
  | ninf, fin _ => ninf
  | fin _, ninf => pinf
  | ninf, ninf => nan
  | ninf, pinf => ninf

/-- Float addition with special values. -/
def fadd : Flt → Flt → Flt
  | nan, _ => nan
  | _, nan => nan
  | fin a, fin b => fin (a + b)
  | pinf, fin _ => pinf
  | fin _, pinf => pinf
  | pinf, pinf => pinf
  | pinf, ninf => nan
  | ninf, fin _ => ninf
  | fin _, ninf => ninf
  | ninf, ninf => ninf
  | ninf, pinf => nan

/-- Multiplication by a rational scalar (`0.5 * series`, `series * 99`). -/
def fscale (c : ℚ) : Flt → Flt
  | nan => nan
  | fin q => fin (c * q)
  | pinf => if 0 < c then pinf else if c < 0 then ninf else nan
  | ninf => if 0 < c then ninf else if c < 0 then pinf else nan

/-- Full float division with special values (for `(s - lo) / (hi - lo)`). -/
def fdivF : Flt → Flt → Flt
  | nan, _ => nan
  | _, nan => nan
  | fin a, fin b => fdivQ a b
  | fin _, pinf => fin 0
  | fin _, ninf => fin 0
  | pinf, fin b => if 0 ≤ b then pinf else ninf
  | ninf, fin b => if 0 ≤ b then ninf else pinf
  | pinf, pinf => nan
  | pinf, ninf => nan
  | ninf, pinf => nan
  | ninf, ninf => nan

/-- Strict comparison; any comparison involving `nan` is false. -/
def flt : Flt → Flt → Bool
  | nan, _ => false
  | _, nan => false
  | ninf, ninf => false
  | ninf, _ => true
  | _, ninf => false
  | pinf, pinf => false
  | _, pinf => true
  | pinf, _ => false
  | fin a, fin b => decide (a < b)

/-- Binary minimum skipping `nan` (pandas reductions use `skipna=True`). -/
def fmin2 (a b : Flt) : Flt :=
  match a, b with
  | nan, x => x
  | x, nan => x
  | x, y => if flt x y then x else y

/-- Binary maximum skipping `nan`. -/
def fmax2 (a b : Flt) : Flt :=
  match a, b with
  | nan, x => x
  | x, nan => x
  | x, y => if flt x y then y else x

/-- `Series.min()`: `nan` on an empty series. -/
def listMinF (l : List Flt) : Flt := l.foldl fmin2 nan

/-- `Series.max()`: `nan` on an empty series. -/
def listMaxF (l : List Flt) : Flt := l.foldl fmax2 nan

/-- Round-half-to-even to an integer. -/
def rhe (q : ℚ) : ℤ :=
  let n := q.floor
  let f := q - n
  if f < 1/2 then n
  else if 1/2 < f then n + 1
  else if n % 2 = 0 then n else n + 1

/-- `Series.round(1)`: round to one decimal place (half-to-even); special
values are unchanged. -/
def fround1 : Flt → Flt
  | fin q => fin ((rhe (10 * q) : ℚ) / 10)
  | x => x

/-- `Series.clip(lo, hi)`: finite values are clamped, `±inf` map to the
bounds, `nan` is left in place. -/
def fclip (lo hi : ℚ) : Flt → Flt
  | nan => nan
  | pinf => fin hi
  | ninf => fin lo
  | fin q => fin (max lo (min q hi))

/-- Whether a float value is finite. -/
def isF : Flt → Bool
  | fin _ => true
  | _ => false

end Flt

/-!  ## Geometry model  -/

/-- A geometry as stored in a GeoDataFrame row.  `missing` is a null
geometry, `other` any non-areal type (point, line, collection), `poly` a
single polygon (with a topological-validity flag and its set of area cells),
`multi` a multi-polygon: a list of single-polygon parts. -/
inductive Geom where
  | missing : Geom
  | other : Geom
  | poly (valid : Bool) (cells : Finset ℕ) : Geom
  | multi (parts : List (Bool × Finset ℕ)) : Geom
deriving DecidableEq

namespace Geom

/-- `geometry.isna()`. -/
def isMissing : Geom → Bool
  | missing => true
  | _ => false

/-- `geom_type.isin(["Polygon", "MultiPolygon"])`. -/
def isPolyType : Geom → Bool
  | poly _ _ => true
  | multi _ => true
  | _ => false

/-- `geom_type == "Polygon"`. -/
def isSingle : Geom → Bool
  | poly _ _ => true
  | _ => false

/-- Single valid polygon. -/
def isValidSingle : Geom → Bool
  | poly v _ => v
  | _ => false

/-- `buffer(0)`: the standard self-intersection repair.  Modelled as marking
the geometry topologically valid; the occupied cells (hence the area) are
preserved. -/
def buffer0 : Geom → Geom
  | poly _ s => poly true s
  | multi ps => multi (ps.map (fun p => (true, p.2)))
  | g => g

/-- `explode()`: a multi-polygon becomes its parts, anything else is kept as
a single row. -/
def explode : Geom → List Geom
  | multi ps => ps.map (fun p => poly p.1 p.2)
  | g => [g]

/-- All cells occupied by a geometry (union over multi-polygon parts). -/
def cells : Geom → Finset ℕ
  | poly _ s => s
  | multi ps => ps.foldr (fun p acc => p.2 ∪ acc) ∅
  | _ => ∅

end Geom

/-- Area of a cell set under the cell-weight function `w`. -/
def areaW (w : ℕ → ℚ) (s : Finset ℕ) : ℚ := s.sum w

/-!  ## Tables  -/

/-- An administrative-unit row (Input A): identifier, population (nullable)
and geometry. -/
structure URow where
  geoid : String
  pop : Option ℚ
  geom : Geom
deriving DecidableEq

/-- A green-space row (Input B): an opaque attribute bag (modelled as a tag)
and geometry. -/
structure GRow where
  attrs : ℕ
  geom : Geom
deriving DecidableEq

/-- An output row of `compute_metrics` (after the final column selection). -/
structure ORow where
  geoid : String
  pop : ℚ
  blockgroup_area : ℚ
  green_area : ℚ
  green_percentage : Flt
  green_area_per_person : Flt
  green_score : Flt
  geom : Geom
deriving DecidableEq

/-!  ## Geometry Sanitizer (`_to_polygons_only`)  -/

/-- Sanitizer line 147 on unit rows: `gdf = gdf[~gdf.geometry.isna()].copy()`. -/
def sanU1 (rows : List URow) : List URow := rows.filter (fun r => ! r.geom.isMissing)

/-- Sanitizer line 148: keep polygon / multi-polygon geometry types. -/
def sanU2 (rows : List URow) : List URow := (sanU1 rows).filter (fun r => r.geom.isPolyType)

/-- Sanitizer line 151: the `buffer(0)` repair on the geometry column; `rk`
records whether the column operation succeeds — on failure the `except`
branch leaves the geometries unchanged. -/
def sanU3 (rk : Bool) (rows : List URow) : List URow :=
  if rk then (sanU2 rows).map (fun r => { r with geom := r.geom.buffer0 }) else sanU2 rows

/-- Sanitizer lines 156/158: `explode` into single-part rows (each part
inherits the parent's attributes); line 159 `reset_index` keeps the data. -/
def sanU4 (rk : Bool) (rows : List URow) : List URow :=
  (sanU3 rk rows).flatMap (fun r => r.geom.explode.map (fun g => { r with geom := g }))

/-- `_to_polygons_only` for unit rows (line 160 re-filters to `Polygon`). -/
def sanitizeU (rk : Bool) (rows : List URow) : List URow :=
  (sanU4 rk rows).filter (fun r => r.geom.isSingle)

/-- Sanitizer line 147 on green rows. -/
def sanG1 (rows : List GRow) : List GRow := rows.filter (fun r => ! r.geom.isMissing)

/-- Sanitizer line 148 on green rows. -/
def sanG2 (rows : List GRow) : List GRow := (sanG1 rows).filter (fun r => r.geom.isPolyType)

/-- Sanitizer line 151 on green rows. -/
def sanG3 (rk : Bool) (rows : List GRow) : List GRow :=
  if rk then (sanG2 rows).map (fun r => { r with geom := r.geom.buffer0 }) else sanG2 rows

/-- Sanitizer lines 156-159 on green rows. -/
def sanG4 (rk : Bool) (rows : List GRow) : List GRow :=
  (sanG3 rk rows).flatMap (fun r => r.geom.explode.map (fun g => { r with geom := g }))

/-- `_to_polygons_only` for green-space rows. -/
def sanitizeG (rk : Bool) (rows : List GRow) : List GRow :=
  (sanG4 rk rows).filter (fun r => r.geom.isSingle)

/-!  ## Overlay Aggregator  -/

/-- One green-space row's slice of `gpd.overlay(green_meters,
city_bg_meters[["GEOID", "geometry"]], how="intersection")`: one fragment
per unit row with a non-empty intersection, carrying the unit's GEOID and
the fragment's cells. -/
def fragsFor (g : GRow) (cityM : List URow) : List (String × Finset ℕ) :=
  cityM.filterMap (fun u =>
    let c := g.geom.cells ∩ u.geom.cells
    if c = ∅ then none else some (u.geoid, c))

/-- All overlay fragments: one pass of `fragsFor` per green-space row. -/
def overlayFrags (greenM : List GRow) (cityM : List URow) : List (String × Finset ℕ) :=
  greenM.flatMap (fun g => fragsFor g cityM)

/-- The fragments with their `green_area` column (line 170). -/
def overlayPairs (w : ℕ → ℚ) (greenM : List GRow) (cityM : List URow) :
    List (String × ℚ) :=
  (overlayFrags greenM cityM).map (fun p => (p.1, areaW w p.2))

/-- `groupby("GEOID").sum()` followed by the left merge and
`fillna(0.0)` (lines 171, 176–177): the total green area attributed to a
GEOID (0 when it has no fragments). -/
def greenByBg (pairs : List (String × ℚ)) (gid : String) : ℚ :=
  ((pairs.filter (fun p => decide (p.1 = gid))).map Prod.snd).sum

/-!  ## Metric Deriver (lines 173–189)  -/

/-- Per-part row after the merges and per-row metric columns. -/
structure BRow where
  geoid : String
  pop : ℚ
  blockgroup_area : ℚ
  green_area : ℚ
  green_percentage : Flt
  green_area_per_person : Flt
  geom : Geom
deriving DecidableEq

/-- The overlay pairs computed by the pipeline for given inputs. -/
def pairsOf (w : ℕ → ℚ) (rk : Bool) (cityBg : List URow) (greens : List GRow) :
    List (String × ℚ) :=
  overlayPairs w (sanitizeG rk greens) (sanitizeU rk cityBg)

/-- One per-part row of lines 173–189: `blockgroup_area` is this part's own
area, `green_area` the GEOID's merged total with `fillna(0.0)`,
`green_percentage = (green_area / blockgroup_area).fillna(0.0)` with float
division, population is `fillna(0).clip(lower=0)` and
`green_area_per_person` the guarded per-row division. -/
def mkBRow (w : ℕ → ℚ) (pairs : List (String × ℚ)) (u : URow) : BRow :=
  let bga := areaW w u.geom.cells
  let ga := greenByBg pairs u.geoid
  let gp := Flt.fillna0 (Flt.fdivQ ga bga)
  let popc := max 0 (u.pop.getD 0)
  let gpp : Flt := if 0 < popc then Flt.fin (ga / popc) else Flt.fin 0
  ⟨u.geoid, popc, bga, ga, gp, gpp, u.geom⟩

/-- Lines 163–189 of `compute_metrics`: sanitize both inputs, overlay,
aggregate green area by GEOID, and derive the per-row metrics. -/
def baseRows (w : ℕ → ℚ) (rk : Bool) (cityBg : List URow) (greens : List GRow) :
    List BRow :=
  (sanitizeU rk cityBg).map (mkBRow w (pairsOf w rk cityBg greens))

/-!  ## Score Normalizer (lines 191–205)  -/

/-- The inner `minmax` helper: fill `nan` with 0, then
`(s - lo) / (hi - lo)` when `hi > lo`, else a series of `0.0`. -/
def minmax (xs : List Flt) : List Flt :=
  let s := xs.map Flt.fillna0
  let lo := Flt.listMinF s
  let hi := Flt.listMaxF s
  if Flt.flt lo hi then s.map (fun x => Flt.fdivF (Flt.fsub x lo) (Flt.fsub hi lo))
  else List.replicate s.length (Flt.fin 0)

/-- Lines 204–205: `(0.5 * percentage_norm + 0.5 * per_person_norm) * 99 + 1`,
then `round(1)`, then `clip(1, 100)`. -/
def scoreOf (pn ppn : Flt) : Flt :=
  Flt.fclip 1 100 (Flt.fround1
    (Flt.fadd (Flt.fscale 99 (Flt.fadd (Flt.fscale (1/2) pn) (Flt.fscale (1/2) ppn)))
      (Flt.fin 1)))

/-- Assemble an output row from a per-part base row and its score. -/
def mkORow (b : BRow) (s : Flt) : ORow :=
  ⟨b.geoid, b.pop, b.blockgroup_area, b.green_area, b.green_percentage,
    b.green_area_per_person, s, b.geom⟩

/-- `compute_metrics(city_bg, greens)`: the full pipeline, returning the
selected output columns (the final `to_crs(4326)` is a bijective
reprojection and does not change the modelled data). -/
def computeMetrics (w : ℕ → ℚ) (rk : Bool) (cityBg : List URow) (greens : List GRow) :
    List ORow :=
  let base := baseRows w rk cityBg greens
  let pn := minmax (base.map BRow.green_percentage)
  let ppn := minmax (base.map BRow.green_area_per_person)
  let scores := List.zipWith scoreOf pn ppn
  List.zipWith mkORow base scores

/-- Whether a score value is a finite number in `[1, 100]`. -/
def scoreOK : Flt → Bool
  | Flt.fin q => decide (1 ≤ q) && decide (q ≤ 100)
  | _ => false

/-- Whether a percentage value is a finite number in `[0, 1]`. -/
def pctOK : Flt → Bool
  | Flt.fin q => decide (0 ≤ q) && decide (q ≤ 1)
  | _ => false

/-!  ## Concrete inputs used by the counterexamples and scenarios  -/

/-- Cell weight: every cell is one square metre. -/
def wUnit : ℕ → ℚ := fun _ => 1

/-- Cell weight: every cell is 2500 square metres. -/
def wCoarse : ℕ → ℚ := fun _ => 2500

/-- Spec scenario, unit table: A and B, population 100 each, disjoint
four-cell polygons of total area 10000 m² each. -/
def unitsTwo : List URow :=
  [⟨"A", some 100, Geom.poly true {0, 1, 2, 3}⟩,
   ⟨"B", some 100, Geom.poly true {4, 5, 6, 7}⟩]

/-- Spec scenario, green table: one polygon of area 5000 m² covering half of
unit A. -/
def greensHalf : List GRow := [⟨0, Geom.poly true {0, 1}⟩]

/-- A unit whose geometry is a multi-polygon with a degenerate zero-area
part (a sliver whose vertices are collinear occupies no cells) next to a
normal part. -/
def unitsDegen : List URow := [⟨"A", some 0, Geom.multi [(true, ∅), (true, {0})]⟩]

/-- A green polygon covering the normal part of `unitsDegen`. -/
def greensDegen : List GRow := [⟨0, Geom.poly true {0}⟩]

/-- A unit whose geometry is a multi-polygon with two disjoint parts of one
square metre each. -/
def unitsTwoPart : List URow := [⟨"A", some 10, Geom.multi [(true, {0}), (true, {1})]⟩]

/-- A single one-cell unit. -/
def unitsSquare : List URow := [⟨"A", some 100, Geom.poly true {0}⟩]

/-- Two coincident green polygons, both covering `unitsSquare` exactly
(overlapping green features are not deduplicated by the engine). -/
def greensDup : List GRow := [⟨0, Geom.poly true {0}⟩, ⟨1, Geom.poly true {0}⟩]

/-- One green polygon covering `unitsSquare` exactly. -/
def greensSolo : List GRow := [⟨0, Geom.poly true {0}⟩]

/-- Unit A's output row in the spec scenario (`unitsTwo`/`greensHalf`). -/
def rowA7 : ORow :=
  ⟨"A", 100, 10000, 5000, Flt.fin (1/2), Flt.fin 50, Flt.fin 100,
    Geom.poly true {0, 1, 2, 3}⟩

/-- The single output row of `computeMetrics wUnit true unitsSquare
greensSolo` (one unit fully covered by one green polygon). -/
def rowSolo : ORow :=
  ⟨"A", 100, 1, 1, Flt.fin 1, Flt.fin (1/100), Flt.fin 1, Geom.poly true {0}⟩

/-- Unit B's output row in the spec scenario (no intersecting green). -/
def rowB7 : ORow :=
  ⟨"B", 100, 10000, 0, Flt.fin 0, Flt.fin 0, Flt.fin 1,
    Geom.poly true {4, 5, 6, 7}⟩

/-- An invalid (self-intersecting) single polygon, for the repair-failure
branch of the sanitizer. -/
def greensBroken : List GRow := [⟨0, Geom.poly false {0}⟩]

/-- A mixed green table: a null geometry, a point, a valid polygon and a
multi-polygon. -/
def greensMixed : List GRow :=
  [⟨0, Geom.missing⟩, ⟨1, Geom.other⟩, ⟨2, Geom.poly true {0}⟩,
   ⟨3, Geom.multi [(true, {1}), (false, {2, 3})]⟩]

/-!  ## Heap model of `compute_metrics`

To settle the frame property (the function mutates neither of its argument
tables) we re-run the pipeline statement by statement over an explicit
object heap.  Every pandas/geopandas operation that documentedly returns a
new object (`to_crs`, boolean-mask selection plus `.copy()`, `explode`,
`reset_index`, `overlay`, `groupby().sum()`, `merge`, column selection)
allocates a fresh table, and every in-place column assignment
(`df["col"] = …`) writes to the address of the table currently bound to the
corresponding Python variable. -/

/-- The merged output row (line 176) with the columns added later held as
`Option` until their assignment statement runs; `population` starts as the
merged nullable column and is overwritten in place at line 185. -/
structure MRow where
  geoid : String
  popM : Option ℚ
  blockgroup_area : ℚ
  green_area : Flt
  geom : Geom
  green_percentage : Option Flt := none
  green_area_per_person : Option Flt := none
  green_score : Option Flt := none
deriving DecidableEq

/-- A heap object: one of the tables the pipeline creates or mutates. -/
inductive DF where
  | uT (l : List URow) : DF
  | uaT (l : List (URow × ℚ)) : DF
  | gT (l : List GRow) : DF
  | iT0 (l : List (String × Finset ℕ)) : DF
  | iT (l : List (String × ℚ)) : DF
  | sT (l : List (String × ℚ)) : DF
  | mT (l : List MRow) : DF
  | oT (l : List ORow) : DF
deriving DecidableEq

/-- The object heap: a list of objects indexed by address. -/
abbrev Heap : Type := List DF

/-- Allocate a fresh object at the next address. -/
def Heap.alloc (h : Heap) (d : DF) : Heap := List.append h [d]

/-- Overwrite the object at an existing address (in-place mutation). -/
def Heap.write (h : Heap) (i : ℕ) (d : DF) : Heap := List.set h i d

/-- Line 176: `output = city_bg_meters.merge(green_by_bg, on="GEOID",
how="left")` — unmatched GEOIDs get a null (`nan`) `green_area`. -/
def mrg0 (w : ℕ → ℚ) (rk : Bool) (cityBg : List URow) (greens : List GRow) :
    List MRow :=
  (sanitizeU rk cityBg).map (fun u =>
    let pairs := pairsOf w rk cityBg greens
    let ga := if pairs.any (fun p => decide (p.1 = u.geoid)) then
        Flt.fin (greenByBg pairs u.geoid)
      else Flt.nan
    ({ geoid := u.geoid, popM := u.pop, blockgroup_area := areaW w u.geom.cells,
       green_area := ga, geom := u.geom } : MRow))

/-- Line 177: `output["green_area"] = output["green_area"].fillna(0.0)`. -/
def mrg1 (w : ℕ → ℚ) (rk : Bool) (cityBg : List URow) (greens : List GRow) :
    List MRow :=
  (mrg0 w rk cityBg greens).map (fun m => { m with green_area := m.green_area.fillna0 })

/-- Line 183: the `green_percentage` column. -/
def mrg2 (w : ℕ → ℚ) (rk : Bool) (cityBg : List URow) (greens : List GRow) :
    List MRow :=
  (mrg1 w rk cityBg greens).map (fun m =>
    let v := Flt.fillna0 (Flt.fdivF m.green_area (Flt.fin m.blockgroup_area))
    { m with green_percentage := some v })

/-- Line 185: `output["population"] = output["population"].fillna(0).clip(lower=0)`. -/
def mrg3 (w : ℕ → ℚ) (rk : Bool) (cityBg : List URow) (greens : List GRow) :
    List MRow :=
  (mrg2 w rk cityBg greens).map (fun m => { m with popM := some (max 0 (m.popM.getD 0)) })

/-- Line 186: the per-row guarded `green_area_per_person` column. -/
def mrg4 (w : ℕ → ℚ) (rk : Bool) (cityBg : List URow) (greens : List GRow) :
    List MRow :=
  (mrg3 w rk cityBg greens).map (fun m =>
    let v := if 0 < m.popM.getD 0 then Flt.fdivF m.green_area (Flt.fin (m.popM.getD 0))
      else Flt.fin 0
    { m with green_area_per_person := some v })

/-- Line 204: the raw composite score column from the two normalized
series. -/
def mrg5 (w : ℕ → ℚ) (rk : Bool) (cityBg : List URow) (greens : List GRow) :
    List MRow :=
  let m4 := mrg4 w rk cityBg greens
  let pn := minmax (m4.map (fun m => m.green_percentage.getD Flt.nan))
  let ppn := minmax (m4.map (fun m => m.green_area_per_person.getD Flt.nan))
  let raw := List.zipWith
    (fun a b => Flt.fadd (Flt.fscale 99 (Flt.fadd (Flt.fscale (1/2) a) (Flt.fscale (1/2) b)))
      (Flt.fin 1)) pn ppn
  List.zipWith (fun (m : MRow) s => { m with green_score := some s }) m4 raw

/-- Line 205: `round(1).clip(1, 100)` on the score column. -/
def mrg6 (w : ℕ → ℚ) (rk : Bool) (cityBg : List URow) (greens : List GRow) :
    List MRow :=
  (mrg5 w rk cityBg greens).map (fun m =>
    { m with green_score := m.green_score.map (fun s => Flt.fclip 1 100 (Flt.fround1 s)) })

/-- Line 207: the final column selection (a fresh table). -/
def outOf (w : ℕ → ℚ) (rk : Bool) (cityBg : List URow) (greens : List GRow) :
    List ORow :=
  (mrg6 w rk cityBg greens).map (fun m =>
    ({ geoid := m.geoid, pop := m.popM.getD 0, blockgroup_area := m.blockgroup_area,
       green_area := match m.green_area with | Flt.fin q => q | _ => 0,
       green_percentage := m.green_percentage.getD Flt.nan,
       green_area_per_person := m.green_area_per_person.getD Flt.nan,
       green_score := m.green_score.getD Flt.nan,
       geom := m.geom } : ORow))

/-- `compute_metrics` as a heap program.  The two argument tables live at
addresses 0 and 1.  Allocation happens in a static order, so every address
is a known constant (written as a literal below); the pair returned is the
final heap together with the address of the freshly allocated result
table. -/
def computeMetricsHeap (w : ℕ → ℚ) (rk : Bool) (cityBg : List URow)
    (greens : List GRow) : Heap × ℕ :=
  let h0 : Heap := [DF.uT cityBg, DF.gT greens]
  let h1 := h0.alloc (DF.uT cityBg)                -- line 139: to_crs copy, address 2
  let h2 := h1.alloc (DF.gT greens)                -- line 140: to_crs copy, address 3
  let h3 := h2.alloc (DF.uT (sanU1 cityBg))        -- line 147: masked copy, address 4
  let h4 := h3.alloc (DF.uT (sanU2 cityBg))        -- line 148: masked copy, address 5
  let h5 := if rk then h4.write 5 (DF.uT (sanU3 rk cityBg)) else h4
    -- line 151: buffer(0) written in place on the table at address 5
  let h6 := h5.alloc (DF.uT (sanU4 rk cityBg))     -- line 156/158: explode, address 6
  let h7 := h6.alloc (DF.uT (sanU4 rk cityBg))     -- line 159: reset_index, address 7
  let h8 := h7.alloc (DF.uT (sanitizeU rk cityBg)) -- line 160: masked copy, address 8
  let h9 := h8.alloc (DF.gT (sanG1 greens))        -- line 147 on greens, address 9
  let h10 := h9.alloc (DF.gT (sanG2 greens))       -- line 148 on greens, address 10
  let h11 := if rk then h10.write 10 (DF.gT (sanG3 rk greens)) else h10
    -- line 151 on greens, written in place on the table at address 10
  let h12 := h11.alloc (DF.gT (sanG4 rk greens))   -- line 156/158, address 11
  let h13 := h12.alloc (DF.gT (sanG4 rk greens))   -- line 159, address 12
  let h14 := h13.alloc (DF.gT (sanitizeG rk greens)) -- line 160, address 13
  let h15 := h14.alloc (DF.iT0 (overlayFrags (sanitizeG rk greens) (sanitizeU rk cityBg)))
    -- line 167: overlay, address 14
  let h16 := h15.write 14 (DF.iT (pairsOf w rk cityBg greens))
    -- line 170: green_area column written in place on the overlay table
  let h17 := h16.alloc (DF.sT
    (((pairsOf w rk cityBg greens).map Prod.fst).dedup.map
      (fun gid => (gid, greenByBg (pairsOf w rk cityBg greens) gid))))
    -- line 171: groupby sum, address 15
  let h18 := h17.write 8 (DF.uaT
    ((sanitizeU rk cityBg).map (fun u => (u, areaW w u.geom.cells))))
    -- line 173: blockgroup_area column written in place on the sanitized city table
  let h19 := h18.alloc (DF.mT (mrg0 w rk cityBg greens))  -- line 176: merge, address 16
  let h20 := h19.write 16 (DF.mT (mrg1 w rk cityBg greens))  -- line 177, in place
  let h21 := h20.write 16 (DF.mT (mrg2 w rk cityBg greens))  -- line 183, in place
  let h22 := h21.write 16 (DF.mT (mrg3 w rk cityBg greens))  -- line 185, in place
  let h23 := h22.write 16 (DF.mT (mrg4 w rk cityBg greens))  -- line 186, in place
  let h24 := h23.write 16 (DF.mT (mrg5 w rk cityBg greens))  -- line 204, in place
  let h25 := h24.write 16 (DF.mT (mrg6 w rk cityBg greens))  -- line 205, in place
  let h26 := h25.alloc (DF.oT (outOf w rk cityBg greens))  -- line 207, address 17
  (h26, 17)

/-!  ## Theorems  -/

/-- C7: on the concrete two-unit scenario — A with population 100, green
area 5000, blockgroup area 10000 and B with population 100, green area 0,
blockgroup area 10000 — the engine produces `green_percentage` 0.5 / 0.0,
normalized percentage 1.0 / 0.0, identically-ranked per-person
normalization, and final rounded scores 100.0 / 1.0. -/
theorem two_unit_scenario :
    ((computeMetrics wCoarse true unitsTwo greensHalf).map
        (fun r => (r.geoid, r.pop, r.blockgroup_area, r.green_area,
          r.green_percentage, r.green_score)) =
      [("A", 100, 10000, 5000, Flt.fin (1/2), Flt.fin 100),
       ("B", 100, 10000, 0, Flt.fin 0, Flt.fin 1)]) ∧
    minmax ((computeMetrics wCoarse true unitsTwo greensHalf).map
        ORow.green_percentage) = [Flt.fin 1, Flt.fin 0] ∧
    minmax ((computeMetrics wCoarse true unitsTwo greensHalf).map
        ORow.green_area_per_person) = [Flt.fin 1, Flt.fin 0] := by
  refine ⟨by decide, by decide, by decide⟩

/-- C1 (counterexample): the claim "`green_score` ∈ [1, 100] for every unit
regardless of the magnitudes of the input areas" is false: a unit whose
multi-part geometry contains a degenerate zero-area part gets
`green_percentage = +inf` on that part's row, normalization turns it into
`inf/inf = nan`, and `round`/`clip` keep `nan`, so the published score is
`nan`, not a number in [1, 100]. -/
theorem green_score_nan_on_zero_area_part :
    ¬ (∀ r ∈ computeMetrics wUnit true unitsDegen greensDegen,
        scoreOK r.green_score = true) := by decide

/-- C2 (code evaluated at the failing input): a single input unit `"A"`
whose geometry is a two-part multi-polygon of 1 m² per part yields TWO
output records, both keyed `"A"`, each carrying its own part's area 1.0
rather than one record with the re-aggregated total 2.0. -/
theorem multipart_unit_duplicated_in_output :
    (computeMetrics wUnit true unitsTwoPart []).map
        (fun r => (r.geoid, r.blockgroup_area)) =
      [("A", 1), ("A", 1)] := by decide

/-- C3 (counterexample): with a valid sanitized one-cell unit and two
coincident valid green polygons contained in it, the summed overlay counts
the shared area twice: `green_area = 2 > 1 = blockgroup_area` and
`green_percentage = 2 ∉ [0, 1]`. -/
theorem green_percentage_exceeds_one_on_overlapping_greens :
    ¬ (∀ r ∈ computeMetrics wUnit true unitsSquare greensDup,
        pctOK r.green_percentage = true ∧ r.green_area ≤ r.blockgroup_area) := by
  decide

/-- C4 (counterexample): the claim that the quotient is forced to exactly
0.0 whenever `blockgroup_area` is zero is false: on a zero-area row whose
GEOID carries positive merged green area, `green_area / blockgroup_area`
is `+inf`, and `fillna(0.0)` replaces only `nan`, so `+inf` is published. -/
theorem green_percentage_inf_on_zero_area :
    ¬ (∀ r ∈ computeMetrics wUnit true unitsDegen greensDegen,
        r.blockgroup_area = 0 → r.green_percentage = Flt.fin 0) := by decide

/-- C9 (counterexample): when the `buffer(0)` repair fails (non-fatally),
the invalid original geometry proceeds unchanged, so the sanitizer's output
can contain an invalid single-part polygon — the claim that the output
contains only valid polygons is false on the repair-failure path. -/
theorem sanitizer_passes_invalid_polygon_on_repair_failure :
    ¬ (∀ r ∈ sanitizeG false greensBroken, r.geom.isValidSingle = true) := by
  decide

/-!  ### Structural lemmas  -/

/-- `minmax` preserves the series length. -/
theorem minmax_length (xs : List Flt) : (minmax xs).length = xs.length := by
  simp only [minmax]
  split <;> simp

/-- The strict float comparison is irreflexive. -/
theorem flt_irrefl (x : Flt) : Flt.flt x x = false := by
  cases x <;> simp [Flt.flt]

/-- Comparison against `nan` on the left is always false. -/
theorem flt_nan_left (y : Flt) : Flt.flt Flt.nan y = false := by
  cases y <;> rfl

/-- Comparison against `nan` on the right is always false. -/
theorem flt_nan_right (x : Flt) : Flt.flt x Flt.nan = false := by
  cases x <;> rfl

/-- `fmin2` returns one of its arguments. -/
theorem fmin2_cases (a b : Flt) : Flt.fmin2 a b = a ∨ Flt.fmin2 a b = b := by
  cases a <;> cases b <;>
    first
      | exact Or.inl rfl
      | exact Or.inr rfl
      | exact ite_eq_or_eq _ _ _

/-- `fmax2` returns one of its arguments. -/
theorem fmax2_cases (a b : Flt) : Flt.fmax2 a b = a ∨ Flt.fmax2 a b = b := by
  cases a <;> cases b <;>
    first
      | exact Or.inl rfl
      | exact Or.inr rfl
      | exact Or.symm (ite_eq_or_eq _ _ _)

/-- A fold of a binary-choice function stays among the inputs. -/
theorem foldl_mem_or_init (f : Flt → Flt → Flt)
    (hf : ∀ a b, f a b = a ∨ f a b = b) :
    ∀ (l : List Flt) (a : Flt), l.foldl f a ∈ l ∨ l.foldl f a = a := by
  intro l
  induction l with
  | nil => intro a; right; rfl
  | cons x xs ih =>
    intro a
    rcases ih (f a x) with h | h
    · left; exact List.mem_cons_of_mem _ h
    · rcases hf a x with h2 | h2
      · right; rw [List.foldl_cons, h, h2]
      · left; rw [List.foldl_cons, h, h2]; exact List.mem_cons_self _ _

/-- The series minimum of a list is one of its entries or `nan`. -/
theorem listMinF_mem_or_nan (l : List Flt) :
    Flt.listMinF l ∈ l ∨ Flt.listMinF l = Flt.nan :=
  foldl_mem_or_init Flt.fmin2 fmin2_cases l Flt.nan

/-- The series maximum of a list is one of its entries or `nan`. -/
theorem listMaxF_mem_or_nan (l : List Flt) :
    Flt.listMaxF l ∈ l ∨ Flt.listMaxF l = Flt.nan :=
  foldl_mem_or_init Flt.fmax2 fmax2_cases l Flt.nan

/-- `fillna0` of a finite value is finite; of `nan` is finite too — only
`±inf` stays non-finite. -/
theorem fillna0_isF (x : Flt) (h : x.isF = true) : (Flt.fillna0 x).isF = true := by
  cases x <;> simp_all [Flt.fillna0, Flt.isF]

/-- A value is finite exactly when it is a `fin`. -/
theorem isF_iff (x : Flt) : x.isF = true ↔ ∃ q, x = Flt.fin q := by
  cases x <;> simp [Flt.isF]

/-- On an all-finite series, `minmax` produces only finite values. -/
theorem minmax_all_isF (xs : List Flt) (h : ∀ x ∈ xs, x.isF = true) :
    ∀ y ∈ minmax xs, y.isF = true := by
  intro y hy
  simp only [minmax] at hy
  have hs : ∀ x ∈ xs.map Flt.fillna0, x.isF = true := by
    intro x hx
    obtain ⟨x0, hx0, rfl⟩ := List.mem_map.mp hx
    exact fillna0_isF x0 (h x0 hx0)
  split at hy
  · next hlt =>
    obtain ⟨x, hx, rfl⟩ := List.mem_map.mp hy
    have hlo : (Flt.listMinF (xs.map Flt.fillna0)).isF = true := by
      rcases listMinF_mem_or_nan (xs.map Flt.fillna0) with hm | hm
      · exact hs _ hm
      · rw [hm, flt_nan_left] at hlt; exact absurd hlt (by simp)
    have hhi : (Flt.listMaxF (xs.map Flt.fillna0)).isF = true := by
      rcases listMaxF_mem_or_nan (xs.map Flt.fillna0) with hm | hm
      · exact hs _ hm
      · rw [hm, flt_nan_right] at hlt; exact absurd hlt (by simp)
    obtain ⟨a, ha⟩ := (isF_iff _).mp (hs x hx)
    obtain ⟨b, hb⟩ := (isF_iff _).mp hlo
    obtain ⟨c, hc⟩ := (isF_iff _).mp hhi
    rw [ha, hb, hc]
    rw [hb, hc] at hlt
    have hbc : b < c := by simpa [Flt.flt] using hlt
    simp [Flt.fsub, Flt.fdivF, Flt.fdivQ, sub_ne_zero_of_ne (ne_of_gt hbc), Flt.isF]
  · simp [List.eq_of_mem_replicate hy, Flt.isF]

/-- `compute_metrics` outputs exactly one row per sanitized exploded part. -/
theorem computeMetrics_length (w : ℕ → ℚ) (rk : Bool) (cb : List URow) (gr : List GRow) :
    (computeMetrics w rk cb gr).length = (baseRows w rk cb gr).length := by
  simp [computeMetrics, List.length_zipWith, minmax_length]

/-- Row `i` of `compute_metrics` is the `i`-th base row assembled with the
score computed from the `i`-th entries of the two normalized series. -/
theorem computeMetrics_getElem (w : ℕ → ℚ) (rk : Bool) (cb : List URow) (gr : List GRow)
    (i : ℕ) (h : i < (computeMetrics w rk cb gr).length) :
    ∃ (hb : i < (baseRows w rk cb gr).length)
      (hp : i < (minmax ((baseRows w rk cb gr).map BRow.green_percentage)).length)
      (hq : i < (minmax ((baseRows w rk cb gr).map BRow.green_area_per_person)).length),
      (computeMetrics w rk cb gr).get ⟨i, h⟩ =
        mkORow ((baseRows w rk cb gr).get ⟨i, hb⟩)
          (scoreOf ((minmax ((baseRows w rk cb gr).map BRow.green_percentage)).get ⟨i, hp⟩)
            ((minmax ((baseRows w rk cb gr).map BRow.green_area_per_person)).get ⟨i, hq⟩)) := by
  have hlen := computeMetrics_length w rk cb gr
  have hb : i < (baseRows w rk cb gr).length := hlen ▸ h
  have hp : i < (minmax ((baseRows w rk cb gr).map BRow.green_percentage)).length := by
    rw [minmax_length, List.length_map]; exact hb
  have hq : i < (minmax ((baseRows w rk cb gr).map BRow.green_area_per_person)).length := by
    rw [minmax_length, List.length_map]; exact hb
  refine ⟨hb, hp, hq, ?_⟩
  simp only [computeMetrics, List.get_eq_getElem, List.getElem_zipWith]

/-- Scoring two finite normalized values lands in `[1, 100]`: the final
`clip(1, 100)` bounds every non-`nan` value. -/
theorem scoreOK_scoreOf (pn ppn : Flt) (h1 : pn.isF = true) (h2 : ppn.isF = true) :
    scoreOK (scoreOf pn ppn) = true := by
  obtain ⟨a, rfl⟩ := (isF_iff pn).mp h1
  obtain ⟨b, rfl⟩ := (isF_iff ppn).mp h2
  simp only [scoreOf, Flt.fscale, Flt.fadd, Flt.fround1, Flt.fclip, scoreOK,
    Bool.and_eq_true, decide_eq_true_eq]
  exact ⟨le_max_left _ _, max_le (by norm_num) (min_le_right _ _)⟩

/-- A base row over a part of nonzero area has a finite green percentage. -/
theorem mkBRow_gp_isF (w : ℕ → ℚ) (pairs : List (String × ℚ)) (u : URow)
    (h : (mkBRow w pairs u).blockgroup_area ≠ 0) :
    (mkBRow w pairs u).green_percentage.isF = true := by
  simp only [mkBRow] at h ⊢
  simp [Flt.fdivQ, h, Flt.fillna0, Flt.isF]

/-- A base row's per-person value is always finite (the guarded division
never divides by zero). -/
theorem mkBRow_gpp_isF (w : ℕ → ℚ) (pairs : List (String × ℚ)) (u : URow) :
    (mkBRow w pairs u).green_area_per_person.isF = true := by
  simp only [mkBRow]
  split <;> simp [Flt.isF]

/-- C1 (amended): provided every sanitized exploded unit part has nonzero
area (no degenerate geometry, so no `blockgroup_area = 0` row), every
output unit's `green_score` is a finite value in the closed interval
[1, 100]: the score is `(0.5 * percentage_norm + 0.5 * per_person_norm) *
99 + 1`, rounded to one decimal place, then clamped to [1, 100]. -/
theorem green_score_in_unit_range (w : ℕ → ℚ) (rk : Bool) (cb : List URow) (gr : List GRow)
    (hpos : ∀ b ∈ baseRows w rk cb gr, b.blockgroup_area ≠ 0) :
    ∀ r ∈ computeMetrics w rk cb gr, scoreOK r.green_score = true := by
  intro r hr
  obtain ⟨i, h, heq⟩ := List.mem_iff_getElem.mp hr
  obtain ⟨hb, hp, hq, hrow⟩ := computeMetrics_getElem w rk cb gr i h
  rw [List.get_eq_getElem] at hrow
  rw [← heq, hrow]
  have hgp : ∀ x ∈ (baseRows w rk cb gr).map BRow.green_percentage, x.isF = true := by
    intro x hx
    obtain ⟨b, hbm, rfl⟩ := List.mem_map.mp hx
    have hbm' := hbm
    simp only [baseRows] at hbm'
    obtain ⟨u, _, rfl⟩ := List.mem_map.mp hbm'
    exact mkBRow_gp_isF _ _ _ (hpos _ hbm)
  have hgpp : ∀ x ∈ (baseRows w rk cb gr).map BRow.green_area_per_person, x.isF = true := by
    intro x hx
    obtain ⟨b, hbm, rfl⟩ := List.mem_map.mp hx
    simp only [baseRows] at hbm
    obtain ⟨u, _, rfl⟩ := List.mem_map.mp hbm
    exact mkBRow_gpp_isF _ _ _
  have h1 := minmax_all_isF _ hgp _ (List.get_mem _ i hp)
  have h2 := minmax_all_isF _ hgpp _ (List.get_mem _ i hq)
  simpa [mkORow] using scoreOK_scoreOf _ _ h1 h2

/-- C1 witness: the amended theorem applied to the concrete two-unit
scenario, at unit A's output row. -/
theorem green_score_in_unit_range_witness :
    scoreOK rowA7.green_score = true :=
  green_score_in_unit_range wCoarse true unitsTwo greensHalf (by decide) rowA7 (by decide)

/-- Areas are nonnegative under a nonnegative cell weight. -/
theorem areaW_nonneg (w : ℕ → ℚ) (hw : ∀ c, 0 ≤ w c) (s : Finset ℕ) :
    0 ≤ areaW w s :=
  Finset.sum_nonneg (fun c _ => hw c)

/-- Every overlay pair's attributed area is nonnegative. -/
theorem overlayPairs_snd_nonneg (w : ℕ → ℚ) (hw : ∀ c, 0 ≤ w c)
    (gm : List GRow) (cm : List URow) :
    ∀ p ∈ overlayPairs w gm cm, 0 ≤ p.2 := by
  intro p hp
  simp only [overlayPairs] at hp
  obtain ⟨q, _, rfl⟩ := List.mem_map.mp hp
  exact areaW_nonneg w hw _

/-- The aggregated green area of any GEOID is nonnegative. -/
theorem greenByBg_nonneg (w : ℕ → ℚ) (hw : ∀ c, 0 ≤ w c)
    (gm : List GRow) (cm : List URow) (gid : String) :
    0 ≤ greenByBg (overlayPairs w gm cm) gid := by
  apply List.sum_nonneg
  intro x hx
  obtain ⟨p, hp, rfl⟩ := List.mem_map.mp hx
  exact overlayPairs_snd_nonneg w hw gm cm p (List.mem_of_mem_filter hp)

/-- `buffer(0)` preserves the occupied cells. -/
theorem cells_buffer0 (g : Geom) : g.buffer0.cells = g.cells := by
  cases g <;> simp [Geom.buffer0, Geom.cells, List.foldr_map]

/-- A part of a multi-polygon occupies a subset of the whole's cells. -/
theorem cells_foldr_sub (ps : List (Bool × Finset ℕ)) (p : Bool × Finset ℕ)
    (hp : p ∈ ps) : p.2 ⊆ ps.foldr (fun p acc => p.2 ∪ acc) ∅ := by
  induction ps with
  | nil => cases hp
  | cons q qs ih =>
    rcases List.mem_cons.mp hp with rfl | hmem
    · exact Finset.subset_union_left
    · exact (ih hmem).trans Finset.subset_union_right

/-- Every exploded part's cells are contained in the source geometry's. -/
theorem explode_cells_sub (g g' : Geom) (h : g' ∈ g.explode) :
    g'.cells ⊆ g.cells := by
  cases g with
  | multi ps =>
    simp only [Geom.explode, List.mem_map] at h
    obtain ⟨p, hp, rfl⟩ := h
    simpa [Geom.cells] using cells_foldr_sub ps p hp
  | missing => simp [Geom.explode] at h; subst h; exact Finset.Subset.refl _
  | other => simp [Geom.explode] at h; subst h; exact Finset.Subset.refl _
  | poly v s => simp [Geom.explode] at h; subst h; exact Finset.Subset.refl _

/-- Every sanitized unit row stems from an input row, keeping its identifier
and population, with its cells contained in the source geometry's cells. -/
theorem sanitizeU_mem_src (rk : Bool) (rows : List URow) (r : URow)
    (h : r ∈ sanitizeU rk rows) :
    ∃ u ∈ rows, r.geoid = u.geoid ∧ r.pop = u.pop ∧ r.geom.cells ⊆ u.geom.cells := by
  simp only [sanitizeU] at h
  have h4 := List.mem_of_mem_filter h
  simp only [sanU4, List.mem_flatMap] at h4
  obtain ⟨r3, hr3, hmap⟩ := h4
  obtain ⟨g, hg, rfl⟩ := List.mem_map.mp hmap
  have hsub : g.cells ⊆ r3.geom.cells := explode_cells_sub _ _ hg
  simp only [sanU3] at hr3
  by_cases hrk : rk
  · rw [if_pos hrk] at hr3
    obtain ⟨r2, hr2, rfl⟩ := List.mem_map.mp hr3
    refine ⟨r2, List.mem_of_mem_filter (List.mem_of_mem_filter hr2), rfl, rfl, ?_⟩
    simpa [cells_buffer0] using hsub
  · rw [if_neg hrk] at hr3
    exact ⟨r3, List.mem_of_mem_filter (List.mem_of_mem_filter hr3), rfl, rfl, hsub⟩

/-- Every sanitized green row stems from an input row, keeping its
attributes, with its cells contained in the source geometry's cells. -/
theorem sanitizeG_mem_src (rk : Bool) (rows : List GRow) (r : GRow)
    (h : r ∈ sanitizeG rk rows) :
    ∃ g0 ∈ rows, r.attrs = g0.attrs ∧ r.geom.cells ⊆ g0.geom.cells := by
  simp only [sanitizeG] at h
  have h4 := List.mem_of_mem_filter h
  simp only [sanG4, List.mem_flatMap] at h4
  obtain ⟨r3, hr3, hmap⟩ := h4
  obtain ⟨g, hg, rfl⟩ := List.mem_map.mp hmap
  have hsub : g.cells ⊆ r3.geom.cells := explode_cells_sub _ _ hg
  simp only [sanG3] at hr3
  by_cases hrk : rk
  · rw [if_pos hrk] at hr3
    obtain ⟨r2, hr2, rfl⟩ := List.mem_map.mp hr3
    refine ⟨r2, List.mem_of_mem_filter (List.mem_of_mem_filter hr2), rfl, ?_⟩
    simpa [cells_buffer0] using hsub
  · rw [if_neg hrk] at hr3
    exact ⟨r3, List.mem_of_mem_filter (List.mem_of_mem_filter hr3), rfl, hsub⟩

/-- Every output row carries the fields of a base row (with some score). -/
theorem mem_computeMetrics_base (w : ℕ → ℚ) (rk : Bool) (cb : List URow)
    (gr : List GRow) (r : ORow) (hr : r ∈ computeMetrics w rk cb gr) :
    ∃ b ∈ baseRows w rk cb gr, r.geoid = b.geoid ∧ r.pop = b.pop ∧
      r.blockgroup_area = b.blockgroup_area ∧ r.green_area = b.green_area ∧
      r.green_percentage = b.green_percentage ∧
      r.green_area_per_person = b.green_area_per_person ∧ r.geom = b.geom := by
  obtain ⟨i, h, heq⟩ := List.mem_iff_getElem.mp hr
  obtain ⟨hb, hp, hq, hrow⟩ := computeMetrics_getElem w rk cb gr i h
  rw [List.get_eq_getElem] at hrow
  refine ⟨(baseRows w rk cb gr).get ⟨i, hb⟩, List.get_mem _ i hb, ?_⟩
  rw [← heq, hrow]
  simp [mkORow]

/-- Every base row is `mkBRow` of a sanitized unit row. -/
theorem mem_baseRows (w : ℕ → ℚ) (rk : Bool) (cb : List URow) (gr : List GRow)
    (b : BRow) (hb : b ∈ baseRows w rk cb gr) :
    ∃ u ∈ sanitizeU rk cb, b = mkBRow w (pairsOf w rk cb gr) u := by
  simp only [baseRows] at hb
  obtain ⟨u, hu, rfl⟩ := List.mem_map.mp hb
  exact ⟨u, hu, rfl⟩

/-- C4 (amended): `green_percentage` is the float quotient
`green_area / blockgroup_area` with `fillna(0.0)` applied afterwards: when
`blockgroup_area ≠ 0` it is the exact finite quotient; when both are zero
the `0/0 = nan` is replaced by exactly `0.0`; but when `blockgroup_area`
is zero and `green_area` positive the published value is `+inf`, because
`fillna` replaces only `nan`, never infinities. -/
theorem green_percentage_division_semantics (w : ℕ → ℚ) (rk : Bool)
    (cb : List URow) (gr : List GRow) (hw : ∀ c, 0 ≤ w c) :
    ∀ r ∈ computeMetrics w rk cb gr,
      r.green_percentage =
        (if r.blockgroup_area ≠ 0 then Flt.fin (r.green_area / r.blockgroup_area)
         else if r.green_area = 0 then Flt.fin 0 else Flt.pinf) := by
  intro r hr
  obtain ⟨b, hb, hgeoid, hpop, hbga, hga, hgp, hgpp, hgeom⟩ :=
    mem_computeMetrics_base w rk cb gr r hr
  obtain ⟨u, hu, rfl⟩ := mem_baseRows w rk cb gr b hb
  have hgann : 0 ≤ greenByBg (pairsOf w rk cb gr) u.geoid := by
    simp only [pairsOf]
    exact greenByBg_nonneg w hw _ _ _
  rw [hgp, hbga, hga]
  simp only [mkBRow]
  by_cases hz : areaW w u.geom.cells = 0
  · rw [hz]
    by_cases hg0 : greenByBg (pairsOf w rk cb gr) u.geoid = 0
    · simp [hg0, Flt.fdivQ, Flt.fillna0]
    · have hpos : 0 < greenByBg (pairsOf w rk cb gr) u.geoid :=
        lt_of_le_of_ne hgann (Ne.symm hg0)
      simp [Flt.fdivQ, hg0, hpos, Flt.fillna0, not_lt.mpr hgann]
  · simp [Flt.fdivQ, hz, Flt.fillna0]

/-- C4 witness: the amended division semantics applied to the concrete
two-unit scenario, at unit A's output row. -/
theorem green_percentage_division_semantics_witness :
    rowA7.green_percentage =
      (if rowA7.blockgroup_area ≠ 0 then
        Flt.fin (rowA7.green_area / rowA7.blockgroup_area)
       else if rowA7.green_area = 0 then Flt.fin 0
       else Flt.pinf) :=
  green_percentage_division_semantics wCoarse true unitsTwo greensHalf
    (fun _ => by simp [wCoarse]) rowA7 (by decide)

/-- C5: `green_area_per_person` equals `green_area / population` when the
(cleaned) population is positive and is exactly `0.0` otherwise; the
published population is the input population defaulted to 0 when missing
and clamped below at 0, hence never negative. -/
theorem green_area_per_person_semantics (w : ℕ → ℚ) (rk : Bool)
    (cb : List URow) (gr : List GRow) :
    ∀ r ∈ computeMetrics w rk cb gr,
      0 ≤ r.pop ∧
      r.green_area_per_person =
        (if 0 < r.pop then Flt.fin (r.green_area / r.pop) else Flt.fin 0) ∧
      ∃ u ∈ cb, r.geoid = u.geoid ∧ r.pop = max 0 (u.pop.getD 0) := by
  intro r hr
  obtain ⟨b, hb, hgeoid, hpop, hbga, hga, hgp, hgpp, hgeom⟩ :=
    mem_computeMetrics_base w rk cb gr r hr
  obtain ⟨u, hu, rfl⟩ := mem_baseRows w rk cb gr b hb
  refine ⟨?_, ?_, ?_⟩
  · rw [hpop]; simp [mkBRow]
  · rw [hgpp, hpop, hga]; simp only [mkBRow]
  · obtain ⟨u0, hu0, hgeq0, hpop0, _⟩ := sanitizeU_mem_src rk cb u hu
    refine ⟨u0, hu0, ?_, ?_⟩
    · rw [hgeoid]
      simpa [mkBRow] using hgeq0
    · rw [hpop]
      simp [mkBRow, hpop0]

/-- C5 witness: the per-person semantics applied to the concrete two-unit
scenario, at unit A's output row. -/
theorem green_area_per_person_semantics_witness :
    0 ≤ rowA7.pop ∧
    rowA7.green_area_per_person =
      (if 0 < rowA7.pop then Flt.fin (rowA7.green_area / rowA7.pop)
       else Flt.fin 0) :=
  let h := green_area_per_person_semantics wCoarse true unitsTwo greensHalf
    rowA7 (by decide)
  ⟨h.1, h.2.1⟩

/-- `fmin2` is idempotent. -/
theorem fmin2_self (x : Flt) : Flt.fmin2 x x = x := by
  cases x <;> simp [Flt.fmin2]

/-- `fmax2` is idempotent. -/
theorem fmax2_self (x : Flt) : Flt.fmax2 x x = x := by
  cases x <;> simp [Flt.fmax2]

/-- Folding `fmin2` from `x` over copies of `x` stays `x`. -/
theorem foldl_fmin2_replicate (n : ℕ) (x : Flt) :
    (List.replicate n x).foldl Flt.fmin2 x = x := by
  induction n with
  | zero => rfl
  | succ m ih => simpa [List.replicate_succ, fmin2_self] using ih

/-- Folding `fmax2` from `x` over copies of `x` stays `x`. -/
theorem foldl_fmax2_replicate (n : ℕ) (x : Flt) :
    (List.replicate n x).foldl Flt.fmax2 x = x := by
  induction n with
  | zero => rfl
  | succ m ih => simpa [List.replicate_succ, fmax2_self] using ih

/-- The minimum of a nonempty constant series is its value. -/
theorem listMinF_replicate (n : ℕ) (x : Flt) :
    Flt.listMinF (List.replicate (n + 1) x) = x := by
  simp only [Flt.listMinF, List.replicate_succ, List.foldl_cons]
  cases x <;> simpa [Flt.fmin2] using foldl_fmin2_replicate n _

/-- The maximum of a nonempty constant series is its value. -/
theorem listMaxF_replicate (n : ℕ) (x : Flt) :
    Flt.listMaxF (List.replicate (n + 1) x) = x := by
  simp only [Flt.listMaxF, List.replicate_succ, List.foldl_cons]
  cases x <;> simpa [Flt.fmax2] using foldl_fmax2_replicate n _

/-- Degenerate min-max normalization: equal bounds give an all-zero
series. -/
theorem minmax_degenerate (xs : List Flt)
    (h : Flt.listMinF (xs.map Flt.fillna0) = Flt.listMaxF (xs.map Flt.fillna0)) :
    ∀ y ∈ minmax xs, y = Flt.fin 0 := by
  intro y hy
  simp only [minmax] at hy
  rw [h, flt_irrefl] at hy
  simp only [Bool.false_eq_true, if_false] at hy
  exact List.eq_of_mem_replicate hy

/-- A constant output metric column makes the corresponding base column a
constant list. -/
theorem base_column_replicate (w : ℕ → ℚ) (rk : Bool) (cb : List URow)
    (gr : List GRow) (f : BRow → Flt) (g : ORow → Flt)
    (hfg : ∀ b s, g (mkORow b s) = f b) (c : Flt)
    (hc : ∀ r ∈ computeMetrics w rk cb gr, g r = c) :
    (baseRows w rk cb gr).map f =
      List.replicate ((baseRows w rk cb gr).map f).length c := by
  apply List.eq_replicate_length.mpr
  intro x hx
  obtain ⟨b, hbm, rfl⟩ := List.mem_map.mp hx
  obtain ⟨j, hj, hjb⟩ := List.mem_iff_getElem.mp hbm
  have hj2 : j < (computeMetrics w rk cb gr).length := by
    rw [computeMetrics_length]; exact hj
  obtain ⟨hb2, hp2, hq2, hrow2⟩ := computeMetrics_getElem w rk cb gr j hj2
  have hcj := hc _ (List.get_mem (computeMetrics w rk cb gr) j hj2)
  rw [hrow2, hfg] at hcj
  simpa [List.get_eq_getElem, hjb] using hcj

/-- C6: min-max normalization is degenerate-safe, and the degenerate case
floors the score: (1) whenever the filled series' maximum equals its
minimum (a single unit, or all-identical values) every normalized value is
defined as exactly 0.0 instead of dividing by zero; (2) consequently, when
every output unit has the same `green_percentage` and the same
`green_area_per_person`, every unit's `green_score` is exactly 1.0. -/
theorem degenerate_minmax_and_score_floor :
    (∀ xs : List Flt,
      Flt.listMinF (xs.map Flt.fillna0) = Flt.listMaxF (xs.map Flt.fillna0) →
      ∀ y ∈ minmax xs, y = Flt.fin 0) ∧
    (∀ (w : ℕ → ℚ) (rk : Bool) (cb : List URow) (gr : List GRow) (c d : Flt),
      (∀ r ∈ computeMetrics w rk cb gr, r.green_percentage = c) →
      (∀ r ∈ computeMetrics w rk cb gr, r.green_area_per_person = d) →
      ∀ r ∈ computeMetrics w rk cb gr, r.green_score = Flt.fin 1) := by
  refine ⟨minmax_degenerate, ?_⟩
  intro w rk cb gr c d hc hd r hr
  obtain ⟨i, h, heq⟩ := List.mem_iff_getElem.mp hr
  obtain ⟨hb, hp, hq, hrow⟩ := computeMetrics_getElem w rk cb gr i h
  rw [List.get_eq_getElem] at hrow
  have hmapc := base_column_replicate w rk cb gr BRow.green_percentage
    ORow.green_percentage (fun b s => rfl) c hc
  have hmapd := base_column_replicate w rk cb gr BRow.green_area_per_person
    ORow.green_area_per_person (fun b s => rfl) d hd
  have hlen0 : ((baseRows w rk cb gr).map BRow.green_percentage).length ≠ 0 := by
    rw [List.length_map]
    exact Nat.pos_iff_ne_zero.mp (Nat.zero_lt_of_lt hb)
  obtain ⟨m, hm⟩ := Nat.exists_eq_succ_of_ne_zero hlen0
  have hlen0d : ((baseRows w rk cb gr).map BRow.green_area_per_person).length ≠ 0 := by
    rw [List.length_map]
    exact Nat.pos_iff_ne_zero.mp (Nat.zero_lt_of_lt hb)
  obtain ⟨m2, hm2⟩ := Nat.exists_eq_succ_of_ne_zero hlen0d
  have hreplc : (baseRows w rk cb gr).map BRow.green_percentage =
      List.replicate (m + 1) c := by
    rw [hmapc, hm]
  have hrepld : (baseRows w rk cb gr).map BRow.green_area_per_person =
      List.replicate (m2 + 1) d := by
    rw [hmapd, hm2]
  have hpc : ∀ y ∈ minmax ((baseRows w rk cb gr).map BRow.green_percentage),
      y = Flt.fin 0 := by
    apply minmax_degenerate
    rw [hreplc, List.map_replicate, listMinF_replicate, listMaxF_replicate]
  have hqc : ∀ y ∈ minmax ((baseRows w rk cb gr).map BRow.green_area_per_person),
      y = Flt.fin 0 := by
    apply minmax_degenerate
    rw [hrepld, List.map_replicate, listMinF_replicate, listMaxF_replicate]
  have h1 := hpc _ (List.get_mem _ i hp)
  have h2 := hqc _ (List.get_mem _ i hq)
  rw [← heq, hrow]
  have hsc : scoreOf (minmax ((baseRows w rk cb gr).map BRow.green_percentage))[i]
      (minmax ((baseRows w rk cb gr).map BRow.green_area_per_person))[i] =
      Flt.fin 1 := by
    rw [List.get_eq_getElem] at h1 h2
    rw [h1, h2]
    decide
  simp [mkORow, hsc]

/-- C6 witness: a single-unit run (identical metrics trivially) receives
score exactly 1.0. -/
theorem degenerate_minmax_and_score_floor_witness :
    rowSolo.green_score = Flt.fin 1 :=
  degenerate_minmax_and_score_floor.2 wUnit true unitsSquare greensSolo
    (Flt.fin 1) (Flt.fin (1/100)) (by decide) (by decide) rowSolo (by decide)

/-- A single polygon is not a missing geometry. -/
theorem isMissing_poly (b : Bool) (s : Finset ℕ) :
    (Geom.poly b s).isMissing = false := rfl

/-- A single polygon is an areal geometry type. -/
theorem isPolyType_poly (b : Bool) (s : Finset ℕ) :
    (Geom.poly b s).isPolyType = true := rfl

/-- A single polygon is single. -/
theorem isSingle_poly (b : Bool) (s : Finset ℕ) :
    (Geom.poly b s).isSingle = true := rfl

/-- Repairing a single polygon marks it valid. -/
theorem buffer0_poly (b : Bool) (s : Finset ℕ) :
    (Geom.poly b s).buffer0 = Geom.poly true s := rfl

/-- A single polygon explodes to itself. -/
theorem explode_poly (b : Bool) (s : Finset ℕ) :
    (Geom.poly b s).explode = [Geom.poly b s] := rfl

/-- On a table of single polygons the sanitizer keeps every row (repairing
geometry in place when the repair step runs) in order. -/
theorem sanitizeU_all_single (rk : Bool) (rows : List URow)
    (h : ∀ u ∈ rows, u.geom.isSingle = true) :
    sanitizeU rk rows =
      rows.map (fun u => { u with geom := if rk then u.geom.buffer0 else u.geom }) := by
  induction rows with
  | nil => cases rk <;> rfl
  | cons v vs ih =>
    have hv := h v (List.mem_cons_self v vs)
    have hvs : ∀ u ∈ vs, u.geom.isSingle = true :=
      fun u hu => h u (List.mem_cons_of_mem v hu)
    obtain ⟨b, s, hg⟩ : ∃ b s, v.geom = Geom.poly b s := by
      cases hgv : v.geom with
      | poly b s => exact ⟨b, s, rfl⟩
      | missing => rw [hgv] at hv; simp [Geom.isSingle] at hv
      | other => rw [hgv] at hv; simp [Geom.isSingle] at hv
      | multi ps => rw [hgv] at hv; simp [Geom.isSingle] at hv
    have ihv := ih hvs
    cases rk with
    | true =>
      simp only [sanitizeU, sanU4, sanU3, sanU2, sanU1, if_true] at ihv ⊢
      simp only [List.filter_cons, List.map_cons, List.flatMap_cons, hg,
        isMissing_poly, isPolyType_poly, isSingle_poly, buffer0_poly, explode_poly,
        Bool.not_false, eq_self_iff_true, if_true, List.singleton_append,
        List.map_nil, ihv]
    | false =>
      simp only [sanitizeU, sanU4, sanU3, sanU2, sanU1, Bool.false_eq_true,
        if_false] at ihv ⊢
      simp only [List.filter_cons, List.map_cons, List.flatMap_cons, hg,
        isMissing_poly, isPolyType_poly, isSingle_poly, explode_poly,
        Bool.not_false, eq_self_iff_true, if_true, List.singleton_append,
        List.map_nil, ihv]

/-- The sanitizer preserves the identifier column on single-polygon
tables. -/
theorem sanitizeU_all_single_geoids (rk : Bool) (rows : List URow)
    (h : ∀ u ∈ rows, u.geom.isSingle = true) :
    (sanitizeU rk rows).map URow.geoid = rows.map URow.geoid := by
  rw [sanitizeU_all_single rk rows h, List.map_map]
  exact List.map_congr_left (fun u _ => rfl)

/-- Aggregation over an empty pair table is zero. -/
theorem greenByBg_nil (gid : String) : greenByBg [] gid = 0 := rfl

/-- Aggregation splits over list append. -/
theorem greenByBg_append (l1 l2 : List (String × ℚ)) (gid : String) :
    greenByBg (l1 ++ l2) gid = greenByBg l1 gid + greenByBg l2 gid := by
  simp [greenByBg, List.filter_append]

/-- Aggregation over a cons. -/
theorem greenByBg_cons (p : String × ℚ) (l : List (String × ℚ)) (gid : String) :
    greenByBg (p :: l) gid =
      (if p.1 = gid then p.2 else 0) + greenByBg l gid := by
  simp only [greenByBg, List.filter_cons]
  split
  · next hp =>
    rw [if_pos (of_decide_eq_true hp)]
    simp
  · next hp =>
    rw [if_neg (by simpa using hp)]
    simp

/-- A GEOID with no pair in the table aggregates to zero. -/
theorem greenByBg_eq_zero (l : List (String × ℚ)) (gid : String)
    (h : ∀ p ∈ l, p.1 ≠ gid) : greenByBg l gid = 0 := by
  have : l.filter (fun p => decide (p.1 = gid)) = [] :=
    List.filter_eq_nil_iff.mpr (by intro p hp; simpa using h p hp)
  simp [greenByBg, this]

/-- Every fragment's GEOID comes from the unit table. -/
theorem fragsFor_fst_mem (g : GRow) (cm : List URow) :
    ∀ p ∈ fragsFor g cm, p.1 ∈ cm.map URow.geoid := by
  intro p hp
  simp only [fragsFor, List.mem_filterMap] at hp
  obtain ⟨u, hu, hf⟩ := hp
  split at hf
  · cases hf
  · cases hf; exact List.mem_map_of_mem URow.geoid hu

/-- Splitting a `fragsFor` pass over a cons of the unit table. -/
theorem fragsFor_cons (g : GRow) (v : URow) (vs : List URow) :
    fragsFor g (v :: vs) =
      (if g.geom.cells ∩ v.geom.cells = ∅ then fragsFor g vs
       else (v.geoid, g.geom.cells ∩ v.geom.cells) :: fragsFor g vs) := by
  by_cases hc : g.geom.cells ∩ v.geom.cells = ∅
  · simp [fragsFor, List.filterMap_cons, hc]
  · simp [fragsFor, List.filterMap_cons, hc]

/-- One green row contributes to a unit's GEOID at most the area of its
intersection with that unit, when identifiers are unique. -/
theorem greenByBg_fragsFor_le (w : ℕ → ℚ) (hw : ∀ c, 0 ≤ w c) (g : GRow) :
    ∀ (cm : List URow), ((cm.map URow.geoid).Nodup) → ∀ u ∈ cm,
      greenByBg ((fragsFor g cm).map (fun p => (p.1, areaW w p.2))) u.geoid ≤
        areaW w (g.geom.cells ∩ u.geom.cells) := by
  intro cm
  induction cm with
  | nil => intro _ u hu; cases hu
  | cons v vs ih =>
    intro hnd u hu
    have hnd0 := hnd
    rw [List.map_cons, List.nodup_cons] at hnd0
    obtain ⟨hvnotin, hnd2⟩ := hnd0
    by_cases hgeq : u.geoid = v.geoid
    · -- the head unit is `u` itself; the tail contributes nothing
      have hzero :
          greenByBg ((fragsFor g vs).map (fun p => (p.1, areaW w p.2))) u.geoid = 0 := by
        apply greenByBg_eq_zero
        intro p hp
        obtain ⟨q, hq, rfl⟩ := List.mem_map.mp hp
        have hmem := fragsFor_fst_mem g vs q hq
        intro hcontra
        rw [hcontra, hgeq] at hmem
        exact hvnotin hmem
      have huv : u = v := by
        rcases List.mem_cons.mp hu with rfl | hmem
        · rfl
        · exact absurd (hgeq ▸ List.mem_map_of_mem URow.geoid hmem) hvnotin
      subst huv
      rw [fragsFor_cons]
      by_cases hemp : g.geom.cells ∩ u.geom.cells = ∅
      · rw [if_pos hemp, hzero]
        exact areaW_nonneg w hw _
      · rw [if_neg hemp, List.map_cons, greenByBg_cons, if_pos rfl, hzero]
        simp
    · -- the head is another unit; its fragment (if any) is filtered out
      have humem : u ∈ vs := by
        rcases List.mem_cons.mp hu with rfl | hmem
        · exact absurd rfl hgeq
        · exact hmem
      have htail := ih hnd2 u humem
      rw [fragsFor_cons]
      by_cases hemp : g.geom.cells ∩ v.geom.cells = ∅
      · rw [if_pos hemp]
        exact htail
      · rw [if_neg hemp, List.map_cons, greenByBg_cons,
          if_neg (fun hh => hgeq hh.symm)]
        simpa using htail

/-- The pairwise-disjoint intersection areas inside a fixed region sum to at
most the region's area. -/
theorem sum_areaW_inter_le (w : ℕ → ℚ) (hw : ∀ c, 0 ≤ w c) :
    ∀ (L : List (Finset ℕ)) (U : Finset ℕ), L.Pairwise Disjoint →
      (L.map (fun s => areaW w (s ∩ U))).sum ≤ areaW w U := by
  intro L
  induction L with
  | nil => intro U _; simpa using areaW_nonneg w hw U
  | cons s L ih =>
    intro U hp
    obtain ⟨hhead, htail⟩ := List.pairwise_cons.mp hp
    have hmap : (L.map (fun t => areaW w (t ∩ U))).sum =
        (L.map (fun t => areaW w (t ∩ (U \ s)))).sum := by
      congr 1
      apply List.map_congr_left
      intro t ht
      congr 1
      ext x
      simp only [Finset.mem_inter, Finset.mem_sdiff]
      constructor
      · rintro ⟨hxt, hxU⟩
        exact ⟨hxt, hxU, fun hxs => (Finset.disjoint_left.mp (hhead t ht)) hxs hxt⟩
      · rintro ⟨hxt, hxU, _⟩
        exact ⟨hxt, hxU⟩
    rw [List.map_cons, List.sum_cons, hmap]
    have hsplit : areaW w (U ∩ s) + areaW w (U \ s) = areaW w U :=
      Finset.sum_inter_add_sum_diff U s w
    have h2 := ih (U \ s) htail
    calc areaW w (s ∩ U) + (L.map (fun t => areaW w (t ∩ (U \ s)))).sum
        ≤ areaW w (s ∩ U) + areaW w (U \ s) := by
          exact add_le_add_left h2 _
      _ = areaW w U := by rw [Finset.inter_comm s U]; exact hsplit

/-- A unit's aggregated green area is bounded by the sum of that unit's
per-green intersection areas, when identifiers are unique. -/
theorem greenByBg_overlay_le_sum (w : ℕ → ℚ) (hw : ∀ c, 0 ≤ w c)
    (gm : List GRow) (cm : List URow) (hnd : (cm.map URow.geoid).Nodup)
    (u : URow) (hu : u ∈ cm) :
    greenByBg (overlayPairs w gm cm) u.geoid ≤
      (gm.map (fun g => areaW w (g.geom.cells ∩ u.geom.cells))).sum := by
  induction gm with
  | nil => simp [overlayPairs, overlayFrags, greenByBg_nil]
  | cons g gs ih =>
    have hsplit : overlayPairs w (g :: gs) cm =
        ((fragsFor g cm).map (fun p => (p.1, areaW w p.2))) ++ overlayPairs w gs cm := by
      simp [overlayPairs, overlayFrags, List.flatMap_cons]
    rw [hsplit, greenByBg_append, List.map_cons, List.sum_cons]
    exact add_le_add (greenByBg_fragsFor_le w hw g cm hnd u hu) ih

/-- With unique identifiers and pairwise-disjoint sanitized green parts, a
unit's aggregated green area never exceeds the unit part's own area. -/
theorem greenByBg_overlay_le (w : ℕ → ℚ) (hw : ∀ c, 0 ≤ w c)
    (gm : List GRow) (cm : List URow) (hnd : (cm.map URow.geoid).Nodup)
    (hdisj : gm.Pairwise (fun a b => Disjoint a.geom.cells b.geom.cells))
    (u : URow) (hu : u ∈ cm) :
    greenByBg (overlayPairs w gm cm) u.geoid ≤ areaW w u.geom.cells := by
  refine le_trans (greenByBg_overlay_le_sum w hw gm cm hnd u hu) ?_
  have := sum_areaW_inter_le w hw (gm.map (fun g => g.geom.cells)) u.geom.cells
    (by
      apply List.Pairwise.map
      · intro a b hab
        exact hab
      · exact hdisj)
  simpa [List.map_map, Function.comp] using this

/-- C3 (amended): on well-formed inputs — nonnegative cell areas, unique
unit identifiers, every unit a single polygon (the shape §6 prescribes for
Input A), and pairwise-disjoint sanitized green parts (overlapping green
features double-count and are excluded by the counterexample) — every
output unit has `green_area ≤ blockgroup_area` and `green_percentage`
a finite value in [0, 1]. -/
theorem green_percentage_in_unit_interval (w : ℕ → ℚ) (rk : Bool)
    (cb : List URow) (gr : List GRow)
    (hw : ∀ c, 0 ≤ w c)
    (hnd : (cb.map URow.geoid).Nodup)
    (hsingle : ∀ u ∈ cb, u.geom.isSingle = true)
    (hdisj : (sanitizeG rk gr).Pairwise (fun a b => Disjoint a.geom.cells b.geom.cells)) :
    ∀ r ∈ computeMetrics w rk cb gr,
      r.green_area ≤ r.blockgroup_area ∧ pctOK r.green_percentage = true := by
  intro r hr
  obtain ⟨b, hb, hgeoid, hpop, hbga, hga, hgp, hgpp, hgeom⟩ :=
    mem_computeMetrics_base w rk cb gr r hr
  obtain ⟨u, hu, rfl⟩ := mem_baseRows w rk cb gr b hb
  have hnds : ((sanitizeU rk cb).map URow.geoid).Nodup := by
    rw [sanitizeU_all_single_geoids rk cb hsingle]; exact hnd
  have hle : greenByBg (pairsOf w rk cb gr) u.geoid ≤ areaW w u.geom.cells := by
    simp only [pairsOf]
    exact greenByBg_overlay_le w hw _ _ hnds hdisj u hu
  have hga0 : 0 ≤ greenByBg (pairsOf w rk cb gr) u.geoid := by
    simp only [pairsOf]
    exact greenByBg_nonneg w hw _ _ _
  have hbga0 : 0 ≤ areaW w u.geom.cells := areaW_nonneg w hw _
  constructor
  · rw [hga, hbga]
    simpa [mkBRow] using hle
  · rw [hgp]
    simp only [mkBRow]
    by_cases hz : areaW w u.geom.cells = 0
    · have hgz : greenByBg (pairsOf w rk cb gr) u.geoid = 0 :=
        le_antisymm (hz ▸ hle) hga0
      simp [hz, hgz, Flt.fdivQ, Flt.fillna0, pctOK]
    · have hpos : 0 < areaW w u.geom.cells := lt_of_le_of_ne hbga0 (Ne.symm hz)
      simp only [Flt.fdivQ, if_pos hz, ne_eq, hz, not_false_eq_true, if_true,
        Flt.fillna0, pctOK]
      simp only [Bool.and_eq_true, decide_eq_true_eq]
      exact ⟨div_nonneg hga0 hbga0, (div_le_one hpos).mpr hle⟩

/-- C3 witness: the amended theorem applied to the concrete two-unit
scenario, at unit A's output row. -/
theorem green_percentage_in_unit_interval_witness :
    rowA7.green_area ≤ rowA7.blockgroup_area ∧
    pctOK rowA7.green_percentage = true :=
  green_percentage_in_unit_interval wCoarse true unitsTwo greensHalf
    (fun _ => by simp [wCoarse]) (by decide) (by decide) (by decide)
    rowA7 (by decide)

/-- A single-polygon unit row survives sanitization (buffered when the
repair step runs). -/
theorem sanitizeU_mem_of_single (rk : Bool) (rows : List URow) (u : URow)
    (hu : u ∈ rows) (hs : u.geom.isSingle = true) :
    ({ u with geom := if rk then u.geom.buffer0 else u.geom }) ∈ sanitizeU rk rows := by
  obtain ⟨b, s, hg⟩ : ∃ b s, u.geom = Geom.poly b s := by
    cases hgv : u.geom with
    | poly b s => exact ⟨b, s, rfl⟩
    | missing => rw [hgv] at hs; simp [Geom.isSingle] at hs
    | other => rw [hgv] at hs; simp [Geom.isSingle] at hs
    | multi ps => rw [hgv] at hs; simp [Geom.isSingle] at hs
  have h2 : u ∈ sanU2 rows := by
    simp only [sanU2, sanU1, List.mem_filter]
    exact ⟨⟨hu, by rw [hg]; rfl⟩, by rw [hg]; rfl⟩
  cases rk with
  | true =>
    simp only [if_true, sanitizeU, List.mem_filter]
    constructor
    · simp only [sanU4, List.mem_flatMap]
      refine ⟨{ u with geom := u.geom.buffer0 }, ?_, ?_⟩
      · simp only [sanU3, if_true]
        exact List.mem_map_of_mem _ h2
      · rw [List.mem_map]
        refine ⟨u.geom.buffer0, ?_, rfl⟩
        rw [hg, buffer0_poly, explode_poly]
        exact List.mem_singleton.mpr rfl
    · rw [hg, buffer0_poly]; rfl
  | false =>
    simp only [Bool.false_eq_true, if_false, sanitizeU, List.mem_filter]
    constructor
    · simp only [sanU4, List.mem_flatMap]
      refine ⟨u, ?_, ?_⟩
      · simp only [sanU3, Bool.false_eq_true, if_false]
        exact h2
      · rw [List.mem_map]
        refine ⟨u.geom, ?_, rfl⟩
        rw [hg, explode_poly]
        exact List.mem_singleton.mpr rfl
    · rw [hg]; rfl

/-- Every overlay pair comes from a green row and a unit row with a
non-empty intersection. -/
theorem mem_overlayPairs (w : ℕ → ℚ) (gm : List GRow) (cm : List URow)
    (p : String × ℚ) (hp : p ∈ overlayPairs w gm cm) :
    ∃ g ∈ gm, ∃ u ∈ cm, g.geom.cells ∩ u.geom.cells ≠ ∅ ∧
      p = (u.geoid, areaW w (g.geom.cells ∩ u.geom.cells)) := by
  simp only [overlayPairs, List.mem_map] at hp
  obtain ⟨q, hq, rfl⟩ := hp
  simp only [overlayFrags, List.mem_flatMap] at hq
  obtain ⟨g, hg, hq2⟩ := hq
  simp only [fragsFor, List.mem_filterMap] at hq2
  obtain ⟨u, hu, hf⟩ := hq2
  split at hf
  · cases hf
  · next hne =>
    cases hf
    exact ⟨g, hg, u, hu, hne, rfl⟩

/-- Every base row gives rise to an output row with the same per-row
columns. -/
theorem exists_out_of_base (w : ℕ → ℚ) (rk : Bool) (cb : List URow)
    (gr : List GRow) (b : BRow) (hb : b ∈ baseRows w rk cb gr) :
    ∃ r ∈ computeMetrics w rk cb gr, r.geoid = b.geoid := by
  obtain ⟨j, hj, hjb⟩ := List.mem_iff_getElem.mp hb
  have hj2 : j < (computeMetrics w rk cb gr).length := by
    rw [computeMetrics_length]; exact hj
  obtain ⟨hb2, hp2, hq2, hrow2⟩ := computeMetrics_getElem w rk cb gr j hj2
  refine ⟨(computeMetrics w rk cb gr).get ⟨j, hj2⟩, List.get_mem _ j hj2, ?_⟩
  rw [List.get_eq_getElem] at hrow2 ⊢
  rw [hrow2]
  simpa [mkORow, List.get_eq_getElem] using congrArg BRow.geoid hjb

/-- C8: with unique identifiers, a single-polygon unit whose geometry
intersects no green-space feature appears in the output, and every output
record keyed by it carries `green_area` explicitly equal to 0.0 and
`green_percentage` equal to 0.0 — filled numeric values, not nulls. -/
theorem no_green_unit_filled_with_zero (w : ℕ → ℚ) (rk : Bool)
    (cb : List URow) (gr : List GRow)
    (hnd : (cb.map URow.geoid).Nodup)
    (u0 : URow) (hu0 : u0 ∈ cb) (hs : u0.geom.isSingle = true)
    (hnog : ∀ g ∈ gr, Disjoint g.geom.cells u0.geom.cells) :
    (∃ r ∈ computeMetrics w rk cb gr, r.geoid = u0.geoid) ∧
    (∀ r ∈ computeMetrics w rk cb gr, r.geoid = u0.geoid →
      r.green_area = 0 ∧ r.green_percentage = Flt.fin 0) := by
  have hgz : greenByBg (pairsOf w rk cb gr) u0.geoid = 0 := by
    apply greenByBg_eq_zero
    intro p hp
    simp only [pairsOf] at hp
    obtain ⟨g, hg, u, hu, hne, rfl⟩ := mem_overlayPairs w _ _ p hp
    intro hcontra
    obtain ⟨usrc, husrc, hgeq, _, hcells⟩ := sanitizeU_mem_src rk cb u hu
    have husame : usrc = u0 :=
      List.inj_on_of_nodup_map hnd husrc hu0 (by rw [← hgeq]; exact hcontra)
    obtain ⟨gsrc, hgsrc, _, hgcells⟩ := sanitizeG_mem_src rk gr g hg
    apply hne
    have hdisj := hnog gsrc hgsrc
    rw [husame] at hcells
    have : g.geom.cells ∩ u.geom.cells ⊆ gsrc.geom.cells ∩ u0.geom.cells :=
      Finset.inter_subset_inter hgcells hcells
    rw [Finset.disjoint_iff_inter_eq_empty.mp hdisj] at this
    exact Finset.subset_empty.mp this
  constructor
  · -- u0's sanitized image produces an output row
    have hmem := sanitizeU_mem_of_single rk cb u0 hu0 hs
    have hbase : mkBRow w (pairsOf w rk cb gr)
        ({ u0 with geom := if rk then u0.geom.buffer0 else u0.geom }) ∈
        baseRows w rk cb gr := by
      simp only [baseRows]
      exact List.mem_map_of_mem _ hmem
    obtain ⟨r, hr, hrg⟩ := exists_out_of_base w rk cb gr _ hbase
    exact ⟨r, hr, by simpa [mkBRow] using hrg⟩
  · intro r hr hrg
    obtain ⟨b, hb, hgeoid, hpop, hbga, hga, hgp, hgpp, hgeom⟩ :=
      mem_computeMetrics_base w rk cb gr r hr
    obtain ⟨u, hu, rfl⟩ := mem_baseRows w rk cb gr b hb
    have hug : u.geoid = u0.geoid := by
      have : r.geoid = u.geoid := by rw [hgeoid]; rfl
      rw [← this, hrg]
    have hgz2 : greenByBg (pairsOf w rk cb gr) u.geoid = 0 := by rw [hug]; exact hgz
    constructor
    · rw [hga]; simpa [mkBRow] using hgz2
    · rw [hgp]
      simp only [mkBRow, hgz2]
      by_cases hz : areaW w u.geom.cells = 0
      · simp [hz, Flt.fdivQ, Flt.fillna0]
      · simp [Flt.fdivQ, hz, Flt.fillna0]

/-- C8 witness: in the concrete two-unit scenario, unit B intersects no
green feature; its output record carries filled zeros. -/
theorem no_green_unit_filled_with_zero_witness :
    rowB7.green_area = 0 ∧ rowB7.green_percentage = Flt.fin 0 :=
  (no_green_unit_filled_with_zero wCoarse true unitsTwo greensHalf (by decide)
      ⟨"B", some 100, Geom.poly true {4, 5, 6, 7}⟩ (by decide) (by decide)
      (by decide)).2
    rowB7 (by decide) (by decide)

/-- After a successful repair, every single-part exploded piece is valid. -/
theorem explode_buffer0_valid (g g' : Geom) (h : g' ∈ g.buffer0.explode)
    (hs : g'.isSingle = true) : g'.isValidSingle = true := by
  cases g with
  | poly b s =>
    rw [buffer0_poly, explode_poly] at h
    rw [List.mem_singleton.mp h]
    rfl
  | multi ps =>
    simp only [Geom.buffer0, Geom.explode, List.map_map, List.mem_map] at h
    obtain ⟨p, _, rfl⟩ := h
    rfl
  | missing => simp [Geom.buffer0, Geom.explode] at h; rw [h] at hs; simp [Geom.isSingle] at hs
  | other => simp [Geom.buffer0, Geom.explode] at h; rw [h] at hs; simp [Geom.isSingle] at hs

/-- C9 (amended): the Geometry Sanitizer is total and narrowing: it raises
no error on any input (it is a total function), an empty input yields an
empty output, and every output record is a single-part polygon that retains
its original attributes and derives from an input record (its cells lie
inside the source geometry's).  Output polygons are guaranteed valid only
when the `buffer(0)` repair step succeeds (`rk = true`); when repair fails
the original geometry — possibly invalid — proceeds unchanged. -/
theorem sanitizer_narrowing (rk : Bool) (rows : List GRow) :
    (rows = [] → sanitizeG rk rows = []) ∧
    ∀ r ∈ sanitizeG rk rows,
      r.geom.isSingle = true ∧
      (rk = true → r.geom.isValidSingle = true) ∧
      ∃ r0 ∈ rows, r.attrs = r0.attrs ∧ r.geom.cells ⊆ r0.geom.cells := by
  constructor
  · rintro rfl
    cases rk <;> rfl
  · intro r hr
    have hsingle : r.geom.isSingle = true := by
      simp only [sanitizeG] at hr
      exact (List.mem_filter.mp hr).2
    refine ⟨hsingle, ?_, sanitizeG_mem_src rk rows r hr⟩
    rintro rfl
    simp only [sanitizeG] at hr
    have h4 := List.mem_of_mem_filter hr
    simp only [sanG4, List.mem_flatMap] at h4
    obtain ⟨r3, hr3, hmap⟩ := h4
    obtain ⟨g, hg, rfl⟩ := List.mem_map.mp hmap
    simp only [sanG3, if_true] at hr3
    obtain ⟨r2, _, rfl⟩ := List.mem_map.mp hr3
    exact explode_buffer0_valid r2.geom g hg hsingle

/-- C9 witness: the amended theorem applied to a mixed input containing a
null geometry, a point, a polygon and a partly invalid multi-polygon, at a
concrete exploded output record. -/
theorem sanitizer_narrowing_witness :
    (⟨3, Geom.poly true {2, 3}⟩ : GRow).geom.isSingle = true ∧
    (⟨3, Geom.poly true {2, 3}⟩ : GRow).geom.isValidSingle = true :=
  ⟨((sanitizer_narrowing true greensMixed).2 ⟨3, Geom.poly true {2, 3}⟩ (by decide)).1,
   ((sanitizer_narrowing true greensMixed).2 ⟨3, Geom.poly true {2, 3}⟩ (by decide)).2.1 rfl⟩

/-- If no pair matches a GEOID, its aggregate is zero. -/
theorem greenByBg_zero_of_not_any (l : List (String × ℚ)) (gid : String)
    (h : l.any (fun p => decide (p.1 = gid)) = false) : greenByBg l gid = 0 := by
  apply greenByBg_eq_zero
  intro p hp
  have := List.any_eq_false.mp h p hp
  simpa using this

/-- After line 186 the merged heap table is exactly the pure base rows with
their columns wrapped (`population` rewritten in place, later columns still
pending). -/
theorem mrg4_eq (w : ℕ → ℚ) (rk : Bool) (cb : List URow) (gr : List GRow) :
    mrg4 w rk cb gr = (baseRows w rk cb gr).map (fun b =>
      (⟨b.geoid, some b.pop, b.blockgroup_area, Flt.fin b.green_area, b.geom,
        some b.green_percentage, some b.green_area_per_person, none⟩ : MRow)) := by
  simp only [mrg4, mrg3, mrg2, mrg1, mrg0, baseRows, List.map_map]
  apply List.map_congr_left
  intro u _
  simp only [Function.comp]
  have hga : Flt.fillna0
      (if (pairsOf w rk cb gr).any (fun p => decide (p.1 = u.geoid)) then
        Flt.fin (greenByBg (pairsOf w rk cb gr) u.geoid)
      else Flt.nan) = Flt.fin (greenByBg (pairsOf w rk cb gr) u.geoid) := by
    by_cases hany : (pairsOf w rk cb gr).any (fun p => decide (p.1 = u.geoid)) = true
    · rw [if_pos hany]; rfl
    · rw [if_neg (by simpa using hany), greenByBg_zero_of_not_any _ _
        (Bool.eq_false_iff.mpr (by simpa using hany))]
      rfl
  simp only [mkBRow, hga, Option.getD_some]
  by_cases hp : (0 : ℚ) < 0 ⊔ u.pop.getD 0
  · simp only [if_pos hp]
    have hdiv : (Flt.fin (greenByBg (pairsOf w rk cb gr) u.geoid)).fdivF
        (Flt.fin (0 ⊔ u.pop.getD 0)) =
        Flt.fin (greenByBg (pairsOf w rk cb gr) u.geoid / (0 ⊔ u.pop.getD 0)) := by
      show Flt.fdivQ _ _ = _
      simp [Flt.fdivQ, ne_of_gt hp]
    rw [hdiv]
    rfl
  · simp only [if_neg hp]
    rfl

/-- The heap program's result table is precisely the pure model's output:
the statement-by-statement heap pipeline computes `compute_metrics`. -/
theorem outOf_eq_computeMetrics (w : ℕ → ℚ) (rk : Bool) (cb : List URow)
    (gr : List GRow) : outOf w rk cb gr = computeMetrics w rk cb gr := by
  have hpn : (mrg4 w rk cb gr).map (fun m => m.green_percentage.getD Flt.nan) =
      (baseRows w rk cb gr).map BRow.green_percentage := by
    rw [mrg4_eq, List.map_map]
    exact List.map_congr_left (fun b _ => rfl)
  have hppn : (mrg4 w rk cb gr).map (fun m => m.green_area_per_person.getD Flt.nan) =
      (baseRows w rk cb gr).map BRow.green_area_per_person := by
    rw [mrg4_eq, List.map_map]
    exact List.map_congr_left (fun b _ => rfl)
  simp only [outOf, mrg6, mrg5, computeMetrics, hpn, hppn, List.map_map,
    List.map_zipWith]
  rw [mrg4_eq, List.zipWith_map_left]
  apply List.ext_getElem
  · simp [List.length_zipWith, minmax_length]
  · intro i h1 h2
    simp only [List.getElem_zipWith]
    rfl

/-- C10: `compute_metrics` mutates neither of its argument tables: after
running the statement-by-statement heap program, the objects at the input
addresses 0 and 1 still hold the original unit and green tables — every
in-place column assignment targets a table freshly allocated inside the
call (`to_crs`, masked `.copy()`, `explode`, `reset_index`, `overlay`,
`groupby().sum()`, `merge`, final selection) — and the result is a newly
allocated table holding exactly the pure pipeline's output. -/
theorem compute_metrics_inputs_unmutated (w : ℕ → ℚ) (rk : Bool)
    (cb : List URow) (gr : List GRow) :
    (computeMetricsHeap w rk cb gr).1[0]? = some (DF.uT cb) ∧
    (computeMetricsHeap w rk cb gr).1[1]? = some (DF.gT gr) ∧
    (computeMetricsHeap w rk cb gr).2 = 17 ∧
    (computeMetricsHeap w rk cb gr).1[17]? =
      some (DF.oT (computeMetrics w rk cb gr)) := by
  rw [← outOf_eq_computeMetrics]
  cases rk <;>
    exact ⟨by simp [computeMetricsHeap, Heap.alloc, Heap.write,
        List.getElem?_append_left, List.getElem?_set_ne, List.length_append,
        List.length_set],
      by simp [computeMetricsHeap, Heap.alloc, Heap.write,
        List.getElem?_append_left, List.getElem?_set_ne, List.length_append,
        List.length_set],
      by simp only [computeMetricsHeap],
      by simp [computeMetricsHeap, Heap.alloc, Heap.write,
        List.getElem?_append_left, List.getElem?_set_ne, List.length_append,
        List.length_set, List.getElem?_concat_length]⟩
